import Mathlib

/-!
Shallow embedding of `src/lib/prometheus-parser/src/line.rs` (a nom 5 based
parser for one line of the Prometheus text exposition format), together with
proofs that settle the frozen claims about its specification.

Modelling conventions:
- Rust string slices become `List Char`; every parser maps an input to either
  an error or a pair of the unconsumed remainder and the parsed value, exactly
  as nom's `IResult` does.
- All `ParserError` values convert to recoverable nom errors (the crate's
  `From<ParserError> for nom::Err<ParserError>` builds `nom::Err::Error`, as
  required for the alternation in `Line::parse_inner` to fall through), so a
  single error type suffices.
- nom's loop combinators (`fold_many0`, `separated_list`) guard against
  non-consuming iterations by comparing slice positions; since every embedded
  parser only ever returns a suffix of its input, "same position" is "same
  length" here, and the loops are driven by a fuel argument that, thanks to
  the same strictness guard nom performs, can never run out.
- Rust `f64` values are represented symbolically: infinities and NaN are
  constructors, and a finite value is the exact rational denoted by the
  decimal literal that nom's `double` — which in nom 5's default build is
  `lexical_core::parse_partial::<f64>` — recognized. This keeps the numeric
  grammar and the token-to-value mapping faithful while abstracting IEEE-754
  rounding, which is strictly monotone and therefore preserves the equalities
  asserted by the spec.
-/

abbrev Input := List Char

/-- Error taxonomy of the crate (`ParserError` in lib.rs): the four specific
variants constructed in line.rs plus `Nom`, the catch-all wrapping of a
nom-level error kind (the spec's `GenericSyntaxError`). -/
inductive ParserError where
  | ParseNameError (input : Input)
  | ParseFloatError (input : Input)
  | ExpectedToken (expected : String) (input : Input)
  | InvalidMetricKind (input : Input)
  | Nom (input : Input)
deriving DecidableEq, Repr

/-- Result of a parser: the unconsumed remainder and the value, or an error.
This is nom's `IResult<&str, T, ParserError>` with all errors recoverable. -/
inductive PResult (α : Type) where
  | ok (rest : Input) (val : α)
  | err (e : ParserError)
deriving DecidableEq, Repr

/-- Modelled from Rust std: `char::is_alphabetic` tests the Unicode
`Alphabetic` property. The model is exact on ASCII and on the Latin-1
supplement (the letter ranges U+00C0..U+00D6, U+00D8..U+00F6, U+00F8..U+00FF);
characters above U+00FF are treated as non-alphabetic, which is sound for
every input examined in this development. -/
def rustIsAlphabetic (c : Char) : Bool :=
  (('A' ≤ c && c ≤ 'Z') || ('a' ≤ c && c ≤ 'z'))
    || (0xC0 ≤ c.toNat && c.toNat ≤ 0xD6)
    || (0xD8 ≤ c.toNat && c.toNat ≤ 0xF6)
    || (0xF8 ≤ c.toNat && c.toNat ≤ 0xFF)

/-- Modelled from Rust std: `char::is_numeric` (general categories Nd, Nl, No).
Exact on ASCII and Latin-1 (superscripts U+00B2, U+00B3, U+00B9 and vulgar
fractions U+00BC..U+00BE). -/
def rustIsNumeric (c : Char) : Bool :=
  c.isDigit || c.toNat = 0xB2 || c.toNat = 0xB3 || c.toNat = 0xB9
    || (0xBC ≤ c.toNat && c.toNat ≤ 0xBE)

/-- Modelled from Rust std: `char::is_alphanumeric` is alphabetic-or-numeric. -/
def rustIsAlphanumeric (c : Char) : Bool :=
  rustIsAlphabetic c || rustIsNumeric c

/-- Modelled from Rust std: `char::is_whitespace` tests the Unicode
`White_Space` property, whose full code-point list is enumerated here. -/
def rustIsWhitespace (c : Char) : Bool :=
  (0x09 ≤ c.toNat && c.toNat ≤ 0x0D) || c.toNat = 0x20 || c.toNat = 0x85
    || c.toNat = 0xA0 || c.toNat = 0x1680
    || (0x2000 ≤ c.toNat && c.toNat ≤ 0x200A)
    || c.toNat = 0x2028 || c.toNat = 0x2029 || c.toNat = 0x202F
    || c.toNat = 0x205F || c.toNat = 0x3000

/-- Predicate of the crate's `trim_space` and `sp`: a space or horizontal tab. -/
def isSpaceTab (c : Char) : Bool := c = ' ' || c = '\t'

/-- line.rs `trim_space`: drop leading spaces and tabs. The combinator
`preceded(sp, p)` is embedded as `p (trim_space input)`, which is exact since
`sp = take_while(space or tab)` never fails. -/
def trim_space (input : Input) : Input := input.dropWhile isSpaceTab

/-- Rust `str::trim`, used by `Line::parse_inner`: strip Unicode whitespace
from both ends. -/
def rustTrim (input : Input) : Input :=
  ((input.dropWhile rustIsWhitespace).reverse.dropWhile rustIsWhitespace).reverse

/-- nom `char(c)`: match one exact character. -/
def pchar (c : Char) (input : Input) : PResult Char :=
  match input with
  | c' :: rest => if c' = c then .ok rest c else .err (.Nom input)
  | [] => .err (.Nom input)

/-- nom `tag(s)`: match an exact leading string. -/
def ptag (s : Input) (input : Input) : PResult Input :=
  if s.isPrefixOf input then .ok (input.drop s.length) s else .err (.Nom input)

/-- nom `take_while(p)`: consume the maximal (possibly empty) run satisfying `p`. -/
def takeWhileP (p : Char → Bool) (input : Input) : PResult Input :=
  .ok (input.dropWhile p) (input.takeWhile p)

/-- nom `take_while1(p)`: as `take_while` but the run must be nonempty. -/
def takeWhile1P (p : Char → Bool) (input : Input) : PResult Input :=
  match input with
  | c :: _ => if p c then .ok (input.dropWhile p) (input.takeWhile p) else .err (.Nom input)
  | [] => .err (.Nom input)

/-- nom `is_not(set)`: a nonempty maximal run of characters outside `set`. -/
def isNotP (banned : List Char) (input : Input) : PResult Input :=
  takeWhile1P (fun c => !banned.contains c) input

/-- Predicate of the first `take_while1` in `parse_name`:
`c.is_alphabetic() || c == '_'`. -/
def isNameStartChar (c : Char) : Bool := rustIsAlphabetic c || c = '_'

/-- Predicate of the second `take_while` in `parse_name`:
`c.is_alphanumeric() || c == '_'`. -/
def isNameChar (c : Char) : Bool := rustIsAlphanumeric c || c = '_'

/-- line.rs `parse_name`: after skipping spaces/tabs, one character satisfying
`is_alphabetic() || c == '_'` then a run satisfying
`is_alphanumeric() || c == '_'`; the two runs are concatenated. A failure is
reported as `ParseNameError` carrying the trimmed input. -/
def parse_name (input : Input) : PResult Input :=
  let input := trim_space input
  match takeWhile1P isNameStartChar input with
  | .err _ => .err (.ParseNameError input)
  | .ok i1 a =>
    match takeWhileP isNameChar i1 with
    | .err _ => .err (.ParseNameError input)
    | .ok i2 b => .ok i2 (a ++ b)

/-- Symbolic model of an `f64` produced by the value lexer: the three sentinel
tokens, or the exact rational value of a recognized decimal literal. -/
inductive FloatVal where
  | posInf
  | negInf
  | nan
  | finite (q : ℚ)
deriving DecidableEq, Repr

/-- Decimal digits to a natural number, most significant first. -/
def digitsToNat (ds : List Char) : Nat :=
  ds.foldl (fun n c => 10 * n + (c.toNat - 48)) 0

/-- Exact rational value of the literal `[-] int [. frac] [e exp]`:
`sign * digits(int ++ frac) * 10 ^ exp / 10 ^ frac.length`, built with `mkRat`
so that it is in lowest terms. -/
def mkFloat (neg : Bool) (int frac : List Char) (exp : Int) : FloatVal :=
  let m : Int := (digitsToNat (int ++ frac) : Int)
  let sm : Int := if neg then -m else m
  match exp with
  | .ofNat e => .finite (mkRat (sm * (((10 : Nat) ^ e : Nat) : Int)) ((10 : Nat) ^ frac.length))
  | .negSucc e => .finite (mkRat sm ((10 : Nat) ^ (frac.length + (e + 1))))

/-- ASCII case folding, as `lexical_core` compares special strings byte-wise
and case-insensitively. -/
def toLowerChar (c : Char) : Char :=
  if 'A' ≤ c && c ≤ 'Z' then Char.ofNat (c.toNat + 32) else c

/-- Case-insensitive match of a (lowercase) pattern against the start of the
input; returns the remainder on success. -/
def matchCaseInsensitive : Input → Input → Option Input
  | [], input => some input
  | _ :: _, [] => none
  | c :: cs, d :: ds => if toLowerChar d = c then matchCaseInsensitive cs ds else none

/-- Modelled from `lexical_core` (the float parser behind nom 5's default
`double`): after the sign, the case-insensitive special strings `infinity`,
`inf` and `nan` are accepted, longest first, mapping to the infinities
(signed) and NaN. -/
def lexicalSpecial (neg : Bool) (input : Input) : Option (Input × FloatVal) :=
  match matchCaseInsensitive "infinity".toList input with
  | some rest => some (rest, if neg then .negInf else .posInf)
  | none =>
    match matchCaseInsensitive "inf".toList input with
    | some rest => some (rest, if neg then .negInf else .posInf)
    | none =>
      match matchCaseInsensitive "nan".toList input with
      | some rest => some (rest, .nan)
      | none => none

/-- Modelled from `lexical_core::parse_partial`: the optional exponent of a
decimal float — `e`/`E`, an optional sign, then digits; when the digits are
missing the exponent is rolled back entirely (so `1e` is the number 1 with
`e` left unconsumed), since the partial parser only consumes what forms a
number. -/
def lexicalExp (neg : Bool) (int frac : List Char) (input : Input) : Input × FloatVal :=
  match input with
  | c :: r =>
    if c = 'e' || c = 'E' then
      let signRest : Bool × Input :=
        match r with
        | '+' :: r2 => (false, r2)
        | '-' :: r2 => (true, r2)
        | _ => (false, r)
      match signRest with
      | (eneg, r1) =>
        let eds := r1.takeWhile Char.isDigit
        if eds.isEmpty then (input, mkFloat neg int frac 0)
        else
          (r1.dropWhile Char.isDigit,
           mkFloat neg int frac
             (if eneg then -(digitsToNat eds : Int) else (digitsToNat eds : Int)))
    else (input, mkFloat neg int frac 0)
  | [] => ([], mkFloat neg int frac 0)

/-- Modelled from `lexical_core::parse_partial`: the decimal mantissa —
integer digits, an optional point with fraction digits, at least one digit in
total — followed by the optional exponent. -/
def lexicalDecimal (neg : Bool) (input : Input) : Option (Input × FloatVal) :=
  let int := input.takeWhile Char.isDigit
  let r1 := input.dropWhile Char.isDigit
  match r1 with
  | '.' :: r2 =>
    let frac := r2.takeWhile Char.isDigit
    let r3 := r2.dropWhile Char.isDigit
    if int.isEmpty && frac.isEmpty then none
    else some (lexicalExp neg int frac r3)
  | _ =>
    if int.isEmpty then none
    else some (lexicalExp neg int [] r1)

/-- nom `number::complete::double` as shipped by nom 5's default (`lexical`)
build: `lexical_core::parse_partial::<f64>` — an optional sign, then either a
case-insensitive special string (`infinity`, `inf`, `nan`) or a decimal
mantissa with optional rolled-back exponent; the longest such prefix is
consumed and anything else is an error at the original input. -/
def double (input : Input) : PResult FloatVal :=
  let signRest : Bool × Input :=
    match input with
    | '+' :: r => (false, r)
    | '-' :: r => (true, r)
    | _ => (false, input)
  match signRest with
  | (neg, i1) =>
    match lexicalSpecial neg i1 with
    | some (rest, v) => .ok rest v
    | none =>
      match lexicalDecimal neg i1 with
      | some (rest, v) => .ok rest v
      | none => .err (.Nom input)

/-- Lexicographic order on code points; Rust's `Ord` on `String` compares
UTF-8 bytes, which orders strings exactly by code points. -/
def charListLt : Input → Input → Bool
  | [], [] => false
  | [], _ :: _ => true
  | _ :: _, [] => false
  | a :: as, b :: bs => a < b || (a = b && charListLt as bs)

/-- Insertion into the sorted association list modelling `BTreeMap<String, String>`:
an existing binding for the key is replaced. -/
def btreeInsert (k v : Input) : List (Input × Input) → List (Input × Input)
  | [] => [(k, v)]
  | (k', v') :: rest =>
    if k = k' then (k, v) :: rest
    else if charListLt k k' then (k, v) :: (k', v') :: rest
    else (k', v') :: btreeInsert k v rest

/-- Rust `list.into_iter().collect::<BTreeMap<_, _>>()`: fold the pairs in
source order into the map, later bindings overwriting earlier ones. -/
def btreeFromList (l : List (Input × Input)) : List (Input × Input) :=
  l.foldl (fun m p => btreeInsert p.1 p.2 m) []

/-- Key lookup in the association list modelling `BTreeMap`. -/
def btreeLookup (m : List (Input × Input)) (k : Input) : Option Input :=
  match m with
  | [] => none
  | (k', v) :: t => if k = k' then some v else btreeLookup t k

/-- line.rs `Metric`: name, label map, value. -/
structure Metric where
  name : Input
  labels : List (Input × Input)
  value : FloatVal
deriving DecidableEq, Repr

/-- line.rs `Metric::parse_value`: skip spaces/tabs, then the first of
`+Inf`, `-Inf`, `Nan`, or a decimal float literal; any failure becomes
`ParseFloatError` carrying the trimmed input. -/
def Metric.parse_value (input : Input) : PResult FloatVal :=
  let input := trim_space input
  let r : PResult FloatVal :=
    match ptag "+Inf".toList input with
    | .ok rest _ => .ok rest .posInf
    | .err _ =>
      match ptag "-Inf".toList input with
      | .ok rest _ => .ok rest .negInf
      | .err _ =>
        match ptag "Nan".toList input with
        | .ok rest _ => .ok rest .nan
        | .err _ => double input
  match r with
  | .ok rest v => .ok rest v
  | .err _ => .err (.ParseFloatError input)

/-- One fragment of an escaped string: a nonempty run free of quote and
backslash, or one of the escapes backslash-n, backslash-quote,
backslash-backslash. -/
def parseStringFragment (input : Input) : PResult Input :=
  match isNotP ['"', '\\'] input with
  | .ok rest run => .ok rest run
  | .err _ =>
    match input with
    | '\\' :: r =>
      match r with
      | 'n' :: r2 => .ok r2 ['\n']
      | '"' :: r2 => .ok r2 ['"']
      | '\\' :: r2 => .ok r2 ['\\']
      | _ => .err (.Nom input)
    | _ => .err (.Nom input)

/-- nom `fold_many0(parse_string_fragment, …, push)`: accumulate fragments
while they succeed. nom aborts if an iteration consumes nothing, comparing
slice positions; fragments always consume, so the fuel (seeded with one more
than the input length) never runs out and the guard branches are unreachable. -/
def buildStringFuel : Nat → Input → Input → PResult Input
  | 0, input, _ => .err (.Nom input)
  | fuel + 1, input, acc =>
    match parseStringFragment input with
    | .err _ => .ok input acc
    | .ok rest frag =>
      if rest.length < input.length then buildStringFuel fuel rest (acc ++ frag)
      else .err (.Nom rest)

/-- The `build_string` fold of `parse_escaped_string`. -/
def buildString (input : Input) : PResult Input :=
  buildStringFuel (input.length + 1) input []

/-- The `match_quote` helper: a double quote, else `ExpectedToken("\"")`. -/
def match_quote (input : Input) : PResult Char :=
  match pchar '"' input with
  | .ok rest c => .ok rest c
  | .err _ => .err (.ExpectedToken "\"" input)

/-- line.rs `Metric::parse_escaped_string`: skip spaces/tabs, then
quote, fragments, quote. -/
def Metric.parse_escaped_string (input : Input) : PResult Input :=
  let input := trim_space input
  match match_quote input with
  | .err e => .err e
  | .ok i1 _ =>
    match buildString i1 with
    | .err e => .err e
    | .ok i2 s =>
      match match_quote i2 with
      | .err e => .err e
      | .ok i3 _ => .ok i3 s

/-- line.rs `Metric::parse_name_value`: `name sp "=" escaped_string`. -/
def Metric.parse_name_value (input : Input) : PResult (Input × Input) :=
  match parse_name input with
  | .err e => .err e
  | .ok i1 name =>
    match pchar '=' (trim_space i1) with
    | .err e => .err e
    | .ok i2 _ =>
      match Metric.parse_escaped_string i2 with
      | .err e => .err e
      | .ok i3 v => .ok i3 (name, v)

/-- Loop of nom 5's `separated_list(preceded(sp, char(',')), parse_name_value)`:
try a separator; on failure return what was collected; on success require
progress, then try an element, backtracking to before the separator if the
element fails. The fuel mirrors nom's progress guard and cannot run out. -/
def sepListLoopFuel : Nat → Input → List (Input × Input) → PResult (List (Input × Input))
  | 0, i, _ => .err (.Nom i)
  | fuel + 1, i, acc =>
    match pchar ',' (trim_space i) with
    | .err _ => .ok i acc
    | .ok i1 _ =>
      if i1.length < i.length then
        match Metric.parse_name_value i1 with
        | .err _ => .ok i acc
        | .ok i2 p => sepListLoopFuel fuel i2 (acc ++ [p])
      else .err (.Nom i1)

/-- nom 5 `separated_list(preceded(sp, char(',')), parse_name_value)`: a first
element (failure yields the empty list), which must consume input, then the
separator/element loop. -/
def sepListNameValue (input : Input) : PResult (List (Input × Input)) :=
  match Metric.parse_name_value input with
  | .err _ => .ok input []
  | .ok i1 p =>
    if i1.length < input.length then sepListLoopFuel (input.length + 1) i1 [p]
    else .err (.Nom i1)

/-- line.rs `Metric::parse_labels_inner`: the separated list of pairs, an
optional trailing comma, and the collect into the ordered map. -/
def Metric.parse_labels_inner (input : Input) : PResult (List (Input × Input)) :=
  match sepListNameValue input with
  | .err e => .err e
  | .ok i1 list =>
    let i2 :=
      match pchar ',' (trim_space i1) with
      | .ok r _ => r
      | .err _ => i1
    .ok i2 (btreeFromList list)

/-- line.rs `Metric::parse_labels`: optional brace-delimited label set; without
a leading left brace, the empty map; a missing closing right brace is
`ExpectedToken` for the right brace, carrying the input before the final
whitespace skip. -/
def Metric.parse_labels (input : Input) : PResult (List (Input × Input)) :=
  let input := trim_space input
  match input with
  | '{' :: i1 =>
    match Metric.parse_labels_inner i1 with
    | .err e => .err e
    | .ok i2 labels =>
      match pchar '}' (trim_space i2) with
      | .ok i3 _ => .ok i3 labels
      | .err _ => .err (.ExpectedToken "\x7d" i2)
  | _ => .ok input []

/-- line.rs `Metric::parse`: name, optional labels, value; the timestamp (and
anything else after the value) is left unconsumed. -/
def Metric.parse (input : Input) : PResult Metric :=
  let input := trim_space input
  match parse_name input with
  | .err e => .err e
  | .ok i1 name =>
    match Metric.parse_labels i1 with
    | .err e => .err e
    | .ok i2 labels =>
      match Metric.parse_value i2 with
      | .err e => .err e
      | .ok i3 value => .ok i3 ⟨name, labels, value⟩

/-- line.rs `MetricKind`. -/
inductive MetricKind where
  | counter
  | gauge
  | histogram
  | summary
  | untyped
deriving DecidableEq, Repr

/-- line.rs `Header`. -/
structure Header where
  metric_name : Input
  kind : MetricKind
deriving DecidableEq, Repr

/-- The kind alternation of `Header::parse`, in source order: `tag("counter")`,
`tag("gauge")`, `tag("summary")`, `tag("histogram")`, `tag("untyped")`. -/
def parseKind (input : Input) : PResult MetricKind :=
  match ptag "counter".toList input with
  | .ok r _ => .ok r .counter
  | .err _ =>
    match ptag "gauge".toList input with
    | .ok r _ => .ok r .gauge
    | .err _ =>
      match ptag "summary".toList input with
      | .ok r _ => .ok r .summary
      | .err _ =>
        match ptag "histogram".toList input with
        | .ok r _ => .ok r .histogram
        | .err _ =>
          match ptag "untyped".toList input with
          | .ok r _ => .ok r .untyped
          | .err _ => .err (.Nom input)

/-- line.rs `Header::parse`: `#`, `TYPE`, a name, and a kind keyword, each
failure mapped to its specific error with the remaining input at that point. -/
def Header.parse (input : Input) : PResult Header :=
  let i0 := trim_space input
  match ptag "#".toList i0 with
  | .err _ => .err (.ExpectedToken "#" i0)
  | .ok i1 _ =>
    let i1 := trim_space i1
    match ptag "TYPE".toList i1 with
    | .err _ => .err (.ExpectedToken "TYPE" i1)
    | .ok i2 _ =>
      match parse_name i2 with
      | .err e => .err e
      | .ok i3 name =>
        let i3 := trim_space i3
        match parseKind i3 with
        | .err _ => .err (.InvalidMetricKind i3)
        | .ok i4 kind => .ok i4 ⟨name, kind⟩

/-- line.rs `Line`: a type header or a metric sample. -/
inductive Line where
  | header (h : Header)
  | metric (m : Metric)
deriving DecidableEq, Repr

/-- line.rs `Line::parse_inner`: trim the line; empty means no value;
otherwise try the metric grammar, the header grammar, and finally accept any
remaining line starting with `#` as an ignorable comment. -/
def Line.parse_inner (input : Input) : PResult (Option Line) :=
  let input := rustTrim input
  if input.isEmpty then .ok input none
  else
    match Metric.parse input with
    | .ok r m => .ok r (some (.metric m))
    | .err _ =>
      match Header.parse input with
      | .ok r h => .ok r (some (.header h))
      | .err _ =>
        match pchar '#' input with
        | .ok r _ => .ok r none
        | .err e => .err e

deriving instance DecidableEq for Except

/-- line.rs `Line::parse`: run `parse_inner` and discard the unconsumed
remainder. -/
def Line.parse (input : Input) : Except ParserError (Option Line) :=
  match Line.parse_inner input with
  | .ok _ line => .ok line
  | .err e => .error e

/-- Character class of the spec's identifier grammar: ASCII letter, ASCII
digit, or underscore. -/
def specIdentTailChar (c : Char) : Bool :=
  ('A' ≤ c && c ≤ 'Z') || ('a' ≤ c && c ≤ 'z') || c.isDigit || c = '_'

/-- The spec's identifier grammar: a first character that is an ASCII letter
or underscore, then ASCII letters, ASCII digits, or underscores. -/
def specIdent : Input → Bool
  | [] => false
  | c :: cs => (('A' ≤ c && c ≤ 'Z') || ('a' ≤ c && c ≤ 'z') || c = '_') && cs.all specIdentTailChar

/-- The spec's decimal float literal grammar (its section 4.2: optional sign,
digits, optional fractional part possibly with zero digits after the point,
optional exponent), tested as matching at the start of the input. Stated
generously — a leading-point form `.5` is also counted as a match — so that a
negative verdict rejects the input under every reading of the grammar. -/
def specFloatMatches (l : Input) : Bool :=
  let l1 := match l with | '+' :: r => r | '-' :: r => r | _ => l
  let int := l1.takeWhile Char.isDigit
  let r1 := l1.dropWhile Char.isDigit
  if int.isEmpty then
    match r1 with
    | '.' :: r2 => !(r2.takeWhile Char.isDigit).isEmpty
    | _ => false
  else true

/-- Identifier validity in the embedded grammar: nonempty, first character
alphabetic or underscore, every character alphanumeric or underscore. -/
def ValidIdentB (l : Input) : Bool :=
  match l with
  | [] => false
  | c :: _ => isNameStartChar c && l.all isNameChar

/-- Label-value validity for unescaped rendering: no double quote, no backslash. -/
def ValidLabelValue (v : Input) : Bool :=
  v.all (fun c => !(['"', '\\'].contains c))

/-- Validity of one rendered label pair. -/
def ValidPairB (p : Input × Input) : Bool :=
  ValidIdentB p.1 && ValidLabelValue p.2

/-- Validity of a list of label pairs. -/
def ValidPairs (pairs : List (Input × Input)) : Bool :=
  pairs.all ValidPairB

/-- Render one label pair as `name="value"`. -/
def renderPair (p : Input × Input) : Input :=
  p.1 ++ '=' :: '"' :: p.2 ++ ['"']

/-- Render a list of pairs, each preceded by a comma separator. -/
def renderTail (pairs : List (Input × Input)) : Input :=
  (pairs.map (fun p => ',' :: renderPair p)).flatten

/-- Render the inside of a label set: comma-separated pairs, optionally
followed by one trailing comma. -/
def renderInner (pairs : List (Input × Input)) (trailing : Bool) : Input :=
  (match pairs with
   | [] => []
   | p :: t => renderPair p ++ renderTail t) ++ (if trailing then [','] else [])

/-- Value of the last (rightmost) occurrence of key `k` in the pair list. -/
def lastVal (l : List (Input × Input)) (k : Input) : Option Input :=
  l.foldl (fun acc q => if q.1 = k then some q.2 else acc) none

/-- The five kind keywords of the header grammar and their `MetricKind`. -/
def kindTable : List (String × MetricKind) :=
  [("counter", .counter), ("gauge", .gauge), ("summary", .summary),
   ("histogram", .histogram), ("untyped", .untyped)]

theorem takeWhile_append_all {p : Char → Bool} {xs ys : List Char}
    (hxs : ∀ c ∈ xs, p c = true) (hys : ∀ c, ys.head? = some c → p c = false) :
    (xs ++ ys).takeWhile p = xs ∧ (xs ++ ys).dropWhile p = ys := by
  induction xs with
  | nil =>
    cases ys with
    | nil => simp
    | cons y t =>
      have hy := hys y rfl
      simp [List.takeWhile_cons, List.dropWhile_cons, hy]
  | cons x xs ih =>
    have hx := hxs x (by simp)
    have ihh := ih (fun c hc => hxs c (by simp [hc]))
    simp [List.takeWhile_cons, List.dropWhile_cons, hx, ihh.1, ihh.2]

theorem dropWhile_append_all {p : Char → Bool} {xs : List Char} (ys : List Char)
    (hxs : ∀ c ∈ xs, p c = true) :
    (xs ++ ys).dropWhile p = ys.dropWhile p := by
  induction xs with
  | nil => simp
  | cons x xs ih =>
    have hx := hxs x (by simp)
    simp [List.dropWhile_cons, hx, ih (fun c hc => hxs c (by simp [hc]))]

theorem length_dropWhile_le (p : Char → Bool) (l : List Char) :
    (l.dropWhile p).length ≤ l.length := by
  induction l with
  | nil => simp
  | cons a l ih =>
    by_cases hp : p a
    · simp only [List.dropWhile_cons, hp, if_true]
      exact Nat.le_trans ih (Nat.le_succ _)
    · simp [List.dropWhile_cons, hp]

theorem dropWhile_head_false {p : Char → Bool} {l t : List Char} {c : Char}
    (h : l.dropWhile p = c :: t) : p c = false := by
  induction l with
  | nil => simp at h
  | cons a l ih =>
    by_cases hp : p a
    · exact ih (by simpa [List.dropWhile_cons, hp] using h)
    · rw [List.dropWhile_cons, if_neg (by simp [hp])] at h
      cases h
      exact Bool.eq_false_iff.mpr hp

theorem mem_of_mem_dropWhile {p : Char → Bool} {l : List Char} {c : Char}
    (h : c ∈ l.dropWhile p) : c ∈ l :=
  (List.dropWhile_sublist p).mem h

theorem nameStart_imp_nameChar {c : Char} (h : isNameStartChar c = true) :
    isNameChar c = true := by
  rcases Bool.or_eq_true_iff.mp h with h1 | h1
  · simp [isNameChar, rustIsAlphanumeric, h1]
  · simp [isNameChar, h1]

theorem isSpaceTab_false_of_nameStart {c : Char} (h : isNameStartChar c = true) :
    isSpaceTab c = false := by
  rw [Bool.eq_false_iff]
  intro hs
  unfold isSpaceTab at hs
  rcases Bool.or_eq_true_iff.mp hs with h1 | h1
  · have hc : c = ' ' := of_decide_eq_true h1
    subst hc
    exact absurd h (by decide)
  · have hc : c = '\t' := of_decide_eq_true h1
    subst hc
    exact absurd h (by decide)

theorem trim_space_cons_of_not {c : Char} {l : List Char} (h : isSpaceTab c = false) :
    trim_space (c :: l) = c :: l := by
  simp [trim_space, List.dropWhile_cons, h]

theorem trim_space_length_le (l : List Char) : (trim_space l).length ≤ l.length :=
  length_dropWhile_le _ l

theorem ptag_append (s r : Input) : ptag s (s ++ r) = .ok r s := by
  have hpre : s.isPrefixOf (s ++ r) = true := by
    rw [List.isPrefixOf_iff_prefix]
    exact List.prefix_append s r
  simp [ptag, hpre, List.drop_left]

theorem pchar_cons_self (c : Char) (r : Input) : pchar c (c :: r) = .ok r c := by
  simp [pchar]

theorem pchar_cons_ne {c c' : Char} (r : Input) (h : c' ≠ c) :
    pchar c (c' :: r) = .err (.Nom (c' :: r)) := by
  simp [pchar, h]

theorem takeWhile1P_ok {p : Char → Bool} {i r a : Input} (h : takeWhile1P p i = .ok r a) :
    r.length < i.length := by
  cases i with
  | nil => simp [takeWhile1P] at h
  | cons c t =>
    by_cases hp : p c = true
    · simp only [takeWhile1P, hp, if_true, PResult.ok.injEq] at h
      obtain ⟨hr, _⟩ := h
      have l2 : ((c :: t).dropWhile p).length ≤ t.length := by
        rw [List.dropWhile_cons, if_pos hp]
        exact length_dropWhile_le _ _
      rw [← hr]
      simp only [List.length_cons]
      omega
    · simp only [takeWhile1P, hp, if_false] at h
      cases h

theorem pchar_ok {c : Char} {i r : Input} {x : Char} (h : pchar c i = .ok r x) :
    i = c :: r := by
  cases i with
  | nil => simp [pchar] at h
  | cons a t =>
    by_cases ha : a = c
    · subst ha
      rw [pchar_cons_self] at h
      simp only [PResult.ok.injEq] at h
      rw [h.1]
    · simp [pchar, ha] at h

theorem parse_name_render {ident rest : Input} (hv : ValidIdentB ident = true)
    (hb : ∀ c, rest.head? = some c → isNameChar c = false) :
    parse_name (ident ++ rest) = .ok rest ident := by
  cases ident with
  | nil => simp [ValidIdentB] at hv
  | cons c cs =>
    simp only [ValidIdentB, Bool.and_eq_true, List.all_eq_true] at hv
    obtain ⟨h1, h2⟩ := hv
    have hsplit : (c :: cs).takeWhile isNameStartChar ++ (c :: cs).dropWhile isNameStartChar
        = c :: cs := List.takeWhile_append_dropWhile isNameStartChar (c :: cs)
    set xs1 := (c :: cs).takeWhile isNameStartChar with hxs1
    set xs2 := (c :: cs).dropWhile isNameStartChar with hxs2
    have hall1 : ∀ x ∈ xs1, isNameStartChar x = true := fun x hx => List.mem_takeWhile_imp hx
    have hall2 : ∀ x ∈ xs2, isNameChar x = true := fun x hx => h2 x (mem_of_mem_dropWhile hx)
    have hhead2 : ∀ x, (xs2 ++ rest).head? = some x → isNameStartChar x = false := by
      intro x hx
      cases e : xs2 with
      | nil =>
        rw [e, List.nil_append] at hx
        have h5 := hb x hx
        rw [Bool.eq_false_iff]
        intro hc
        rw [nameStart_imp_nameChar hc] at h5
        cases h5
      | cons d t =>
        rw [e, List.cons_append, List.head?_cons] at hx
        obtain rfl : d = x := by injection hx
        have e2 : (c :: cs).dropWhile isNameStartChar = d :: t := by rw [← hxs2]; exact e
        exact dropWhile_head_false e2
    have hlist : c :: (cs ++ rest) = xs1 ++ (xs2 ++ rest) := by
      rw [← List.append_assoc, hsplit]
      rfl
    have hTW1 := takeWhile_append_all hall1 hhead2
    have e3 : takeWhile1P isNameStartChar ((c :: cs) ++ rest) = .ok (xs2 ++ rest) xs1 := by
      show takeWhile1P isNameStartChar (c :: (cs ++ rest)) = _
      simp only [takeWhile1P, h1, if_true]
      rw [hlist, hTW1.1, hTW1.2]
    have hTW2 := takeWhile_append_all hall2 hb
    have e4 : takeWhileP isNameChar (xs2 ++ rest) = .ok rest xs2 := by
      rw [takeWhileP, hTW2.1, hTW2.2]
    have htrim : trim_space ((c :: cs) ++ rest) = (c :: cs) ++ rest :=
      trim_space_cons_of_not (isSpaceTab_false_of_nameStart h1)
    simp only [parse_name, htrim, e3, e4, hsplit]

theorem parse_name_length {i r n : Input} (h : parse_name i = .ok r n) :
    r.length < i.length := by
  simp only [parse_name] at h
  split at h
  · cases h
  case h_2 i1 a heq =>
    simp only [takeWhileP, PResult.ok.injEq] at h
    obtain ⟨hr, _⟩ := h
    have l1 : (i1.dropWhile isNameChar).length ≤ i1.length := length_dropWhile_le _ _
    have l2 : i1.length < (trim_space i).length := takeWhile1P_ok heq
    have l3 : (trim_space i).length ≤ i.length := trim_space_length_le i
    rw [← hr]
    omega

theorem fragment_err_at_quote (rest : Input) :
    parseStringFragment ('"' :: rest) = .err (.Nom ('"' :: rest)) := rfl

theorem fragment_literal {s rest : Input} (hne : s ≠ [])
    (hs : ∀ c ∈ s, (!(['"', '\\'].contains c)) = true) :
    parseStringFragment (s ++ '"' :: rest) = .ok ('"' :: rest) s := by
  cases s with
  | nil => exact absurd rfl hne
  | cons c cs =>
    have hhead : ∀ x, ('"' :: rest).head? = some x → (!(['"', '\\'].contains x)) = false := by
      intro x hx
      rw [List.head?_cons] at hx
      obtain rfl : '"' = x := by injection hx
      decide
    have hTW := takeWhile_append_all hs hhead
    have hc := hs c (by simp)
    have hnot : isNotP ['"', '\\'] ((c :: cs) ++ '"' :: rest) = .ok ('"' :: rest) (c :: cs) := by
      show isNotP ['"', '\\'] (c :: (cs ++ '"' :: rest)) = _
      simp only [isNotP, takeWhile1P, hc, if_true]
      have hlist : c :: (cs ++ '"' :: rest) = (c :: cs) ++ '"' :: rest := rfl
      rw [hlist, hTW.1, hTW.2]
    simp only [parseStringFragment, hnot]

theorem buildStringFuel_stop {fuel : Nat} (hf : 0 < fuel) (rest acc : Input) :
    buildStringFuel fuel ('"' :: rest) acc = .ok ('"' :: rest) acc := by
  cases fuel with
  | zero => omega
  | succ f => simp only [buildStringFuel, fragment_err_at_quote]

theorem buildStringFuel_literal {s rest acc : Input} {fuel : Nat} (hf : s.length < fuel)
    (hs : ∀ c ∈ s, (!(['"', '\\'].contains c)) = true) :
    buildStringFuel fuel (s ++ '"' :: rest) acc = .ok ('"' :: rest) (acc ++ s) := by
  cases s with
  | nil =>
    simpa using buildStringFuel_stop (by omega) rest acc
  | cons c cs =>
    cases fuel with
    | zero => simp at hf
    | succ f =>
      have hfrag : parseStringFragment ((c :: cs) ++ '"' :: rest) = .ok ('"' :: rest) (c :: cs) :=
        fragment_literal (by simp) hs
      simp only [buildStringFuel, hfrag]
      rw [if_pos (by simp only [List.length_cons, List.length_append]; omega)]
      apply buildStringFuel_stop
      simp only [List.length_cons] at hf
      omega

theorem match_quote_ok {i r : Input} {c : Char} (h : match_quote i = .ok r c) :
    i = '"' :: r := by
  simp only [match_quote] at h
  split at h
  case h_1 x rest d heq =>
    simp only [PResult.ok.injEq] at h
    rw [← h.1]
    exact pchar_ok heq
  · cases h

theorem parse_escaped_string_render {s rest : Input}
    (hs : ∀ c ∈ s, (!(['"', '\\'].contains c)) = true) :
    Metric.parse_escaped_string ('"' :: s ++ '"' :: rest) = .ok rest s := by
  have htrim : trim_space ('"' :: (s ++ '"' :: rest)) = '"' :: (s ++ '"' :: rest) :=
    trim_space_cons_of_not (by decide)
  have hq1 : match_quote ('"' :: (s ++ '"' :: rest)) = .ok (s ++ '"' :: rest) '"' := rfl
  have hbs : buildString (s ++ '"' :: rest) = .ok ('"' :: rest) s := by
    rw [buildString]
    have hlt : s.length < (s ++ '"' :: rest).length + 1 := by
      simp only [List.length_append, List.length_cons]
      omega
    simpa using buildStringFuel_literal hlt hs
  have hq2 : match_quote ('"' :: rest) = .ok rest '"' := rfl
  simp only [List.cons_append, Metric.parse_escaped_string, htrim, hq1, hbs, hq2]

theorem buildStringFuel_length {fuel : Nat} :
    ∀ {input acc r s : Input}, buildStringFuel fuel input acc = .ok r s →
      r.length ≤ input.length := by
  induction fuel with
  | zero => intro input acc r s h; simp [buildStringFuel] at h
  | succ f ih =>
    intro input acc r s h
    simp only [buildStringFuel] at h
    split at h
    · simp only [PResult.ok.injEq] at h
      rw [← h.1]
    case h_2 rest frag heq =>
      split at h
      case isTrue hlt => exact Nat.le_trans (ih h) (Nat.le_of_lt hlt)
      case isFalse => cases h

theorem parse_escaped_string_length {i r s : Input}
    (h : Metric.parse_escaped_string i = .ok r s) : r.length < i.length := by
  simp only [Metric.parse_escaped_string] at h
  split at h
  · cases h
  case h_2 i1 c1 e1 =>
    split at h
    · cases h
    case h_2 i2 s2 e2 =>
      split at h
      · cases h
      case h_2 i3 c3 e3 =>
        simp only [PResult.ok.injEq] at h
        obtain ⟨rfl, _⟩ := h
        have hq1 := match_quote_ok e1
        have hq3 := match_quote_ok e3
        have hb : i2.length ≤ i1.length := by
          rw [buildString] at e2
          exact buildStringFuel_length e2
        have ht : (trim_space i).length ≤ i.length := trim_space_length_le i
        rw [hq1] at ht
        rw [hq3] at hb
        simp only [List.length_cons] at ht hb
        omega

theorem parse_name_value_render {k v rest : Input} (hk : ValidIdentB k = true)
    (hv : ValidLabelValue v = true) :
    Metric.parse_name_value (renderPair (k, v) ++ rest) = .ok rest (k, v) := by
  have hvv : ∀ c ∈ v, (!(['"', '\\'].contains c)) = true := by
    simpa only [ValidLabelValue, List.all_eq_true] using hv
  have hlist : renderPair (k, v) ++ rest = k ++ ('=' :: '"' :: (v ++ '"' :: rest)) := by
    simp [renderPair, List.append_assoc]
  have hb : ∀ c, ('=' :: '"' :: (v ++ '"' :: rest)).head? = some c → isNameChar c = false := by
    intro c hc
    rw [List.head?_cons] at hc
    obtain rfl : '=' = c := by injection hc
    decide
  have hn := parse_name_render hk hb
  have hes : Metric.parse_escaped_string ('"' :: (v ++ '"' :: rest)) = .ok rest v := by
    have h2 : Metric.parse_escaped_string (('"' :: v) ++ ('"' :: rest)) = .ok rest v :=
      parse_escaped_string_render hvv
    simpa only [List.cons_append] using h2
  rw [hlist]
  simp only [Metric.parse_name_value, hn, trim_space_cons_of_not (by decide : isSpaceTab '=' = false),
    pchar_cons_self, hes]

theorem parse_name_value_length {i r : Input} {p : Input × Input}
    (h : Metric.parse_name_value i = .ok r p) : r.length < i.length := by
  simp only [Metric.parse_name_value] at h
  split at h
  · cases h
  case h_2 i1 name e1 =>
    split at h
    · cases h
    case h_2 i2 x e2 =>
      split at h
      · cases h
      case h_2 i3 v e3 =>
        simp only [PResult.ok.injEq] at h
        obtain ⟨rfl, _⟩ := h
        have l1 := parse_name_length e1
        have l2 : i2.length < i1.length := by
          have hcons := pchar_ok e2
          have lt : (trim_space i1).length ≤ i1.length := trim_space_length_le i1
          rw [hcons] at lt
          simp only [List.length_cons] at lt
          omega
        have l3 := parse_escaped_string_length e3
        omega

theorem parse_name_err_head {c : Char} {rest : Input} (h1 : isNameStartChar c = false)
    (h2 : isSpaceTab c = false) :
    parse_name (c :: rest) = .err (.ParseNameError (c :: rest)) := by
  simp only [parse_name, trim_space_cons_of_not h2, takeWhile1P, h1]
  simp

theorem parse_name_value_err_head {c : Char} {rest : Input} (h1 : isNameStartChar c = false)
    (h2 : isSpaceTab c = false) :
    Metric.parse_name_value (c :: rest) = .err (.ParseNameError (c :: rest)) := by
  simp only [Metric.parse_name_value, parse_name_err_head h1 h2]

theorem sepListLoopFuel_stop {fuel : Nat} (hf : 0 < fuel) {i : Input}
    (acc : List (Input × Input)) {esep : ParserError}
    (hsep : pchar ',' (trim_space i) = .err esep) :
    sepListLoopFuel fuel i acc = .ok i acc := by
  cases fuel with
  | zero => omega
  | succ f => simp only [sepListLoopFuel, hsep]

theorem sepListLoopFuel_elem_fail {fuel : Nat} (hf : 0 < fuel) {i j : Input}
    (acc : List (Input × Input)) {x : Char} {ee : ParserError}
    (hsep : pchar ',' (trim_space i) = .ok j x)
    (helem : Metric.parse_name_value j = .err ee) :
    sepListLoopFuel fuel i acc = .ok i acc := by
  cases fuel with
  | zero => omega
  | succ f =>
    have hcons : trim_space i = ',' :: j := pchar_ok hsep
    have hji : j.length < i.length := by
      have lt : (trim_space i).length ≤ i.length := trim_space_length_le i
      rw [hcons] at lt
      simp only [List.length_cons] at lt
      omega
    simp only [sepListLoopFuel, hsep]
    rw [if_pos hji]
    simp only [helem]

theorem renderTail_length_ge (t : List (Input × Input)) : t.length ≤ (renderTail t).length := by
  induction t with
  | nil => simp [renderTail]
  | cons p t ih =>
    simp only [renderTail, List.map_cons, List.flatten_cons, List.length_append,
      List.length_cons] at ih ⊢
    omega

theorem sepListLoopFuel_render {pairs : List (Input × Input)} :
    ∀ {fuel : Nat} {acc : List (Input × Input)} {suffix : Input},
      ValidPairs pairs = true → pairs.length < fuel →
      (∀ (f0 : Nat) (acc0 : List (Input × Input)), 0 < f0 →
        sepListLoopFuel f0 suffix acc0 = .ok suffix acc0) →
      sepListLoopFuel fuel (renderTail pairs ++ suffix) acc = .ok suffix (acc ++ pairs) := by
  induction pairs with
  | nil =>
    intro fuel acc suffix _ hf hend
    simpa [renderTail] using hend fuel acc hf
  | cons p t ih =>
    intro fuel acc suffix hval hf hend
    cases fuel with
    | zero => simp at hf
    | succ f =>
      obtain ⟨k, v⟩ := p
      simp only [ValidPairs, List.all_cons, Bool.and_eq_true] at hval
      obtain ⟨hp, ht⟩ := hval
      simp only [ValidPairB, Bool.and_eq_true] at hp
      obtain ⟨hk, hv⟩ := hp
      have hinput : renderTail ((k, v) :: t) ++ suffix
          = ',' :: (renderPair (k, v) ++ (renderTail t ++ suffix)) := by
        simp [renderTail, List.append_assoc]
      rw [hinput]
      have hsep : pchar ',' (trim_space (',' :: (renderPair (k, v) ++ (renderTail t ++ suffix))))
          = .ok (renderPair (k, v) ++ (renderTail t ++ suffix)) ',' := by
        rw [trim_space_cons_of_not (by decide), pchar_cons_self]
      have helem : Metric.parse_name_value (renderPair (k, v) ++ (renderTail t ++ suffix))
          = .ok (renderTail t ++ suffix) (k, v) := parse_name_value_render hk hv
      simp only [sepListLoopFuel, hsep]
      rw [if_pos (by simp)]
      simp only [helem]
      have hrec : sepListLoopFuel f (renderTail t ++ suffix) (acc ++ [(k, v)])
          = .ok suffix ((acc ++ [(k, v)]) ++ t) :=
        ih (show ValidPairs t = true by simpa [ValidPairs] using ht)
          (show t.length < f by simp only [List.length_cons] at hf; omega) hend
      rw [hrec]
      simp

theorem sepListNameValue_render {k v : Input} {t : List (Input × Input)} {suffix : Input}
    (hval : ValidPairs ((k, v) :: t) = true)
    (hend : ∀ (f0 : Nat) (acc0 : List (Input × Input)), 0 < f0 →
      sepListLoopFuel f0 suffix acc0 = .ok suffix acc0) :
    sepListNameValue (renderPair (k, v) ++ (renderTail t ++ suffix)) = .ok suffix ((k, v) :: t) := by
  have hval' := hval
  simp only [ValidPairs, List.all_cons, Bool.and_eq_true] at hval'
  obtain ⟨hp, ht⟩ := hval'
  simp only [ValidPairB, Bool.and_eq_true] at hp
  obtain ⟨hk, hv⟩ := hp
  have helem : Metric.parse_name_value (renderPair (k, v) ++ (renderTail t ++ suffix))
      = .ok (renderTail t ++ suffix) (k, v) := parse_name_value_render hk hv
  simp only [sepListNameValue, helem]
  have hlen : (renderTail t ++ suffix).length
      < (renderPair (k, v) ++ (renderTail t ++ suffix)).length := by
    simp only [renderPair, List.length_append, List.length_cons]
    omega
  rw [if_pos hlen]
  have hfuel : t.length < (renderPair (k, v) ++ (renderTail t ++ suffix)).length + 1 := by
    have h1 := renderTail_length_ge t
    simp only [List.length_append]
    omega
  have hrec : sepListLoopFuel ((renderPair (k, v) ++ (renderTail t ++ suffix)).length + 1)
      (renderTail t ++ suffix) [(k, v)] = .ok suffix ([(k, v)] ++ t) :=
    sepListLoopFuel_render (show ValidPairs t = true by simpa [ValidPairs] using ht) hfuel hend
  simpa using hrec

theorem sepListNameValue_err_elem {input : Input} {e : ParserError}
    (h : Metric.parse_name_value input = .err e) : sepListNameValue input = .ok input [] := by
  simp only [sepListNameValue, h]

theorem parse_labels_inner_render {pairs : List (Input × Input)} {trailing : Bool} {rest : Input}
    (hval : ValidPairs pairs = true) :
    Metric.parse_labels_inner (renderInner pairs trailing ++ '}' :: rest)
      = .ok ('}' :: rest) (btreeFromList pairs) := by
  cases pairs with
  | nil =>
    cases trailing with
    | false =>
      have hin : renderInner [] false ++ '}' :: rest = '}' :: rest := by simp [renderInner]
      rw [hin]
      have he : Metric.parse_name_value ('}' :: rest) = .err (.ParseNameError ('}' :: rest)) :=
        parse_name_value_err_head (by decide) (by decide)
      have hsl := sepListNameValue_err_elem he
      have hc : pchar ',' (trim_space ('}' :: rest)) = .err (.Nom ('}' :: rest)) := by
        rw [trim_space_cons_of_not (by decide)]
        exact pchar_cons_ne rest (by decide)
      simp only [Metric.parse_labels_inner, hsl, hc]
    | true =>
      have hin : renderInner [] true ++ '}' :: rest = ',' :: '}' :: rest := by simp [renderInner]
      rw [hin]
      have he : Metric.parse_name_value (',' :: '}' :: rest)
          = .err (.ParseNameError (',' :: '}' :: rest)) :=
        parse_name_value_err_head (by decide) (by decide)
      have hsl := sepListNameValue_err_elem he
      have hc : pchar ',' (trim_space (',' :: '}' :: rest)) = .ok ('}' :: rest) ',' := by
        rw [trim_space_cons_of_not (by decide)]
        exact pchar_cons_self ',' _
      simp only [Metric.parse_labels_inner, hsl, hc]
  | cons p t =>
    obtain ⟨k, v⟩ := p
    cases trailing with
    | false =>
      have hin : renderInner ((k, v) :: t) false ++ '}' :: rest
          = renderPair (k, v) ++ (renderTail t ++ ('}' :: rest)) := by
        simp [renderInner, List.append_assoc]
      have hend : ∀ (f0 : Nat) (acc0 : List (Input × Input)), 0 < f0 →
          sepListLoopFuel f0 ('}' :: rest) acc0 = .ok ('}' :: rest) acc0 := by
        intro f0 acc0 hf0
        have hc0 : pchar ',' (trim_space ('}' :: rest)) = .err (.Nom ('}' :: rest)) := by
          rw [trim_space_cons_of_not (by decide)]
          exact pchar_cons_ne rest (by decide)
        exact sepListLoopFuel_stop hf0 acc0 hc0
      have hsl := sepListNameValue_render hval hend
      rw [hin]
      have hc : pchar ',' (trim_space ('}' :: rest)) = .err (.Nom ('}' :: rest)) := by
        rw [trim_space_cons_of_not (by decide)]
        exact pchar_cons_ne rest (by decide)
      simp only [Metric.parse_labels_inner, hsl, hc]
    | true =>
      have hin : renderInner ((k, v) :: t) true ++ '}' :: rest
          = renderPair (k, v) ++ (renderTail t ++ (',' :: '}' :: rest)) := by
        simp [renderInner, List.append_assoc]
      have hend : ∀ (f0 : Nat) (acc0 : List (Input × Input)), 0 < f0 →
          sepListLoopFuel f0 (',' :: '}' :: rest) acc0 = .ok (',' :: '}' :: rest) acc0 := by
        intro f0 acc0 hf0
        have hsep : pchar ',' (trim_space (',' :: '}' :: rest)) = .ok ('}' :: rest) ',' := by
          rw [trim_space_cons_of_not (by decide)]
          exact pchar_cons_self ',' _
        have helem2 : Metric.parse_name_value ('}' :: rest)
            = .err (.ParseNameError ('}' :: rest)) :=
          parse_name_value_err_head (by decide) (by decide)
        exact sepListLoopFuel_elem_fail hf0 acc0 hsep helem2
      have hsl := sepListNameValue_render hval hend
      rw [hin]
      have hc : pchar ',' (trim_space (',' :: '}' :: rest)) = .ok ('}' :: rest) ',' := by
        rw [trim_space_cons_of_not (by decide)]
        exact pchar_cons_self ',' _
      simp only [Metric.parse_labels_inner, hsl, hc]

theorem parse_labels_render {pairs : List (Input × Input)} {trailing : Bool} {rest : Input}
    (hval : ValidPairs pairs = true) :
    Metric.parse_labels ('{' :: (renderInner pairs trailing ++ '}' :: rest))
      = .ok rest (btreeFromList pairs) := by
  have htrim : trim_space ('{' :: (renderInner pairs trailing ++ '}' :: rest))
      = '{' :: (renderInner pairs trailing ++ '}' :: rest) := trim_space_cons_of_not (by decide)
  have hinner : Metric.parse_labels_inner (renderInner pairs trailing ++ '}' :: rest)
      = .ok ('}' :: rest) (btreeFromList pairs) := parse_labels_inner_render hval
  have hc : pchar '}' (trim_space ('}' :: rest)) = .ok rest '}' := by
    rw [trim_space_cons_of_not (by decide)]
    exact pchar_cons_self '}' rest
  simp only [Metric.parse_labels, htrim, hinner, hc]

theorem sepListLoopFuel_no_err {fuel : Nat} :
    ∀ {i : Input} {acc : List (Input × Input)} {e : ParserError}, i.length < fuel →
      sepListLoopFuel fuel i acc ≠ .err e := by
  induction fuel with
  | zero => intro i acc e h; exact absurd h (by omega)
  | succ f ih =>
    intro i acc e h hcontra
    simp only [sepListLoopFuel] at hcontra
    split at hcontra
    · cases hcontra
    case h_2 i1 x hsep =>
      have hcons := pchar_ok hsep
      have hi1 : i1.length < i.length := by
        have lt := trim_space_length_le i
        rw [hcons] at lt
        simp only [List.length_cons] at lt
        omega
      rw [if_pos hi1] at hcontra
      split at hcontra
      · cases hcontra
      case h_2 i2 p helem =>
        have hi2 : i2.length < i1.length := parse_name_value_length helem
        exact ih (by omega) hcontra

theorem sepListNameValue_no_err {input : Input} {e : ParserError} :
    sepListNameValue input ≠ .err e := by
  intro hcontra
  simp only [sepListNameValue] at hcontra
  split at hcontra
  · cases hcontra
  case h_2 i1 p helem =>
    have hlt := parse_name_value_length helem
    rw [if_pos hlt] at hcontra
    exact sepListLoopFuel_no_err (by omega) hcontra

theorem parse_labels_inner_no_err {input : Input} {e : ParserError} :
    Metric.parse_labels_inner input ≠ .err e := by
  intro hcontra
  simp only [Metric.parse_labels_inner] at hcontra
  split at hcontra
  case h_1 e2 hsl => exact sepListNameValue_no_err hsl
  case h_2 => cases hcontra

theorem btreeLookup_insert (k v k' : Input) (m : List (Input × Input)) :
    btreeLookup (btreeInsert k v m) k' = if k' = k then some v else btreeLookup m k' := by
  induction m with
  | nil => simp [btreeInsert, btreeLookup]
  | cons p t ih =>
    obtain ⟨k2, v2⟩ := p
    by_cases h1 : k = k2
    · subst h1
      simp only [btreeInsert, if_pos rfl]
      by_cases h2 : k' = k
      · simp [btreeLookup, h2]
      · simp [btreeLookup, h2]
    · simp only [btreeInsert, if_neg h1]
      by_cases h3 : charListLt k k2 = true
      · rw [if_pos h3]
        by_cases h2 : k' = k
        · simp [btreeLookup, h2]
        · simp [btreeLookup, h2]
      · rw [if_neg h3]
        by_cases h2 : k' = k2
        · subst h2
          have hne : ¬(k' = k) := fun hh => h1 hh.symm
          simp [btreeLookup, hne]
        · simp [btreeLookup, h2, ih]

theorem lastVal_init (l : List (Input × Input)) (a : Option Input) (k : Input) :
    l.foldl (fun acc q => if q.1 = k then some q.2 else acc) a = (lastVal l k).or a := by
  induction l generalizing a with
  | nil => simp [lastVal]
  | cons q t ih =>
    simp only [List.foldl_cons]
    rw [ih]
    have hr : lastVal (q :: t) k
        = (lastVal t k).or (if q.1 = k then some q.2 else none) := by
      show List.foldl _ _ (q :: t) = _
      simp only [List.foldl_cons]
      exact ih _
    rw [hr]
    cases e : lastVal t k with
    | some v => simp [Option.or]
    | none =>
      by_cases hq : q.1 = k
      · simp [Option.or, hq]
      · simp [Option.or, hq]

theorem btreeLookup_fromList (l : List (Input × Input)) (k : Input) :
    btreeLookup (btreeFromList l) k = lastVal l k := by
  suffices h : ∀ (m : List (Input × Input)),
      btreeLookup (l.foldl (fun m p => btreeInsert p.1 p.2 m) m) k
        = (lastVal l k).or (btreeLookup m k) by
    have h0 := h []
    simpa [btreeFromList, btreeLookup] using h0
  induction l with
  | nil => intro m; simp [lastVal]
  | cons q t ih =>
    intro m
    simp only [List.foldl_cons]
    rw [ih (btreeInsert q.1 q.2 m)]
    rw [btreeLookup_insert]
    have hr : lastVal (q :: t) k
        = (lastVal t k).or (if q.1 = k then some q.2 else none) := by
      show List.foldl _ _ (q :: t) = _
      simp only [List.foldl_cons]
      exact lastVal_init t _ k
    rw [hr]
    cases e : lastVal t k with
    | some v => simp [Option.or]
    | none =>
      by_cases hq : q.1 = k
      · subst hq
        simp [Option.or]
      · have hq2 : ¬(k = q.1) := fun hh => hq hh.symm
        simp [Option.or, hq, hq2]

theorem ptag_err_of_not {s i : Input} (h : s.isPrefixOf i = false) :
    ptag s i = .err (.Nom i) := by
  simp [ptag, h]

theorem ptag_err_head {a b : Char} {s i : Input} (h : ¬(a = b)) :
    ptag (a :: s) (b :: i) = .err (.Nom (b :: i)) := by
  have hp : ((a :: s).isPrefixOf (b :: i)) = false := by
    simp [List.isPrefixOf, h]
  exact ptag_err_of_not hp

theorem trim_space_of_head_not {l : Input} (h : ∀ c, l.head? = some c → isSpaceTab c = false) :
    trim_space l = l := by
  cases l with
  | nil => rfl
  | cons c t => exact trim_space_cons_of_not (h c rfl)

theorem parseKind_of_table {kw : String} {K : MetricKind} {rest : Input}
    (hmem : (kw, K) ∈ kindTable) :
    parseKind (kw.toList ++ rest) = .ok rest K := by
  simp only [kindTable, List.mem_cons, List.mem_singleton, Prod.mk.injEq,
    List.not_mem_nil, or_false] at hmem
  rcases hmem with ⟨rfl, rfl⟩ | ⟨rfl, rfl⟩ | ⟨rfl, rfl⟩ | ⟨rfl, rfl⟩ | ⟨rfl, rfl⟩
  · show parseKind ("counter".toList ++ rest) = .ok rest .counter
    have h1 : ptag "counter".toList ("counter".toList ++ rest) = .ok rest "counter".toList :=
      ptag_append _ _
    simp only [parseKind, h1]
  · show parseKind ("gauge".toList ++ rest) = .ok rest .gauge
    have h1 : ptag "counter".toList ("gauge".toList ++ rest)
        = .err (.Nom ("gauge".toList ++ rest)) := ptag_err_head (by decide)
    have h2 : ptag "gauge".toList ("gauge".toList ++ rest) = .ok rest "gauge".toList :=
      ptag_append _ _
    simp only [parseKind, h1, h2]
  · show parseKind ("summary".toList ++ rest) = .ok rest .summary
    have h1 : ptag "counter".toList ("summary".toList ++ rest)
        = .err (.Nom ("summary".toList ++ rest)) := ptag_err_head (by decide)
    have h2 : ptag "gauge".toList ("summary".toList ++ rest)
        = .err (.Nom ("summary".toList ++ rest)) := ptag_err_head (by decide)
    have h3 : ptag "summary".toList ("summary".toList ++ rest) = .ok rest "summary".toList :=
      ptag_append _ _
    simp only [parseKind, h1, h2, h3]
  · show parseKind ("histogram".toList ++ rest) = .ok rest .histogram
    have h1 : ptag "counter".toList ("histogram".toList ++ rest)
        = .err (.Nom ("histogram".toList ++ rest)) := ptag_err_head (by decide)
    have h2 : ptag "gauge".toList ("histogram".toList ++ rest)
        = .err (.Nom ("histogram".toList ++ rest)) := ptag_err_head (by decide)
    have h3 : ptag "summary".toList ("histogram".toList ++ rest)
        = .err (.Nom ("histogram".toList ++ rest)) := ptag_err_head (by decide)
    have h4 : ptag "histogram".toList ("histogram".toList ++ rest) = .ok rest "histogram".toList :=
      ptag_append _ _
    simp only [parseKind, h1, h2, h3, h4]
  · show parseKind ("untyped".toList ++ rest) = .ok rest .untyped
    have h1 : ptag "counter".toList ("untyped".toList ++ rest)
        = .err (.Nom ("untyped".toList ++ rest)) := ptag_err_head (by decide)
    have h2 : ptag "gauge".toList ("untyped".toList ++ rest)
        = .err (.Nom ("untyped".toList ++ rest)) := ptag_err_head (by decide)
    have h3 : ptag "summary".toList ("untyped".toList ++ rest)
        = .err (.Nom ("untyped".toList ++ rest)) := ptag_err_head (by decide)
    have h4 : ptag "histogram".toList ("untyped".toList ++ rest)
        = .err (.Nom ("untyped".toList ++ rest)) := ptag_err_head (by decide)
    have h5 : ptag "untyped".toList ("untyped".toList ++ rest) = .ok rest "untyped".toList :=
      ptag_append _ _
    simp only [parseKind, h1, h2, h3, h4, h5]

theorem parseKind_none {kwinput : Input}
    (h : ∀ (kw : String) (K : MetricKind), (kw, K) ∈ kindTable →
      kw.toList.isPrefixOf kwinput = false) :
    parseKind kwinput = .err (.Nom kwinput) := by
  have h1 := ptag_err_of_not (h "counter" .counter (by simp [kindTable]))
  have h2 := ptag_err_of_not (h "gauge" .gauge (by simp [kindTable]))
  have h3 := ptag_err_of_not (h "summary" .summary (by simp [kindTable]))
  have h4 := ptag_err_of_not (h "histogram" .histogram (by simp [kindTable]))
  have h5 := ptag_err_of_not (h "untyped" .untyped (by simp [kindTable]))
  simp only [parseKind, h1, h2, h3, h4, h5]

theorem parse_name_space (i : Input) : parse_name (' ' :: i) = parse_name i := by
  simp only [parse_name]
  rw [show trim_space (' ' :: i) = trim_space i from by
    simp [trim_space, List.dropWhile_cons, isSpaceTab]]

theorem header_render {name kwinput : Input} (hname : ValidIdentB name = true)
    (hks : ∀ c, kwinput.head? = some c → isSpaceTab c = false) :
    Header.parse ('#' :: ' ' :: 'T' :: 'Y' :: 'P' :: 'E' :: ' ' :: (name ++ ' ' :: kwinput))
      = (match parseKind kwinput with
         | .err _ => .err (.InvalidMetricKind kwinput)
         | .ok r k => .ok r (⟨name, k⟩ : Header)) := by
  have htrim0 : trim_space ('#' :: ' ' :: 'T' :: 'Y' :: 'P' :: 'E' :: ' '
      :: (name ++ ' ' :: kwinput)) = '#' :: ' ' :: 'T' :: 'Y' :: 'P' :: 'E' :: ' '
      :: (name ++ ' ' :: kwinput) := trim_space_cons_of_not (by decide)
  have h1 : ptag "#".toList ('#' :: ' ' :: 'T' :: 'Y' :: 'P' :: 'E' :: ' '
      :: (name ++ ' ' :: kwinput)) = .ok (' ' :: 'T' :: 'Y' :: 'P' :: 'E' :: ' '
      :: (name ++ ' ' :: kwinput)) "#".toList := ptag_append "#".toList _
  have htr1 : trim_space (' ' :: 'T' :: 'Y' :: 'P' :: 'E' :: ' ' :: (name ++ ' ' :: kwinput))
      = 'T' :: 'Y' :: 'P' :: 'E' :: ' ' :: (name ++ ' ' :: kwinput) := by
    simp [trim_space, List.dropWhile_cons, isSpaceTab]
  have h2 : ptag "TYPE".toList ('T' :: 'Y' :: 'P' :: 'E' :: ' ' :: (name ++ ' ' :: kwinput))
      = .ok (' ' :: (name ++ ' ' :: kwinput)) "TYPE".toList := ptag_append "TYPE".toList _
  have h3 : parse_name (' ' :: (name ++ ' ' :: kwinput)) = .ok (' ' :: kwinput) name := by
    rw [parse_name_space]
    exact parse_name_render hname (by
      intro c hc
      rw [List.head?_cons] at hc
      obtain rfl : ' ' = c := by injection hc
      decide)
  have htr2 : trim_space (' ' :: kwinput) = kwinput := by
    have : trim_space (' ' :: kwinput) = trim_space kwinput := by
      simp [trim_space, List.dropWhile_cons, isSpaceTab]
    rw [this]
    exact trim_space_of_head_not hks
  simp only [Header.parse, htrim0, h1, htr1, h2, h3, htr2]

theorem parse_name_value_space (i : Input) :
    Metric.parse_name_value (' ' :: i) = Metric.parse_name_value i := by
  simp only [Metric.parse_name_value, parse_name_space]

theorem nameStart_ne_of {c0 d : Char} (h : isNameStartChar c0 = true)
    (hd : isNameStartChar d = false) : ¬(c0 = d) := by
  intro he
  rw [he] at h
  rw [h] at hd
  cases hd

theorem parse_labels_err {input : Input} {e : ParserError}
    (h : Metric.parse_labels input = .err e) : ∃ r, e = .ExpectedToken "\x7d" r := by
  simp only [Metric.parse_labels] at h
  split at h
  case h_1 i1 heq =>
    split at h
    case h_1 e2 hinner => exact absurd hinner parse_labels_inner_no_err
    case h_2 i2 labels hinner =>
      split at h
      · cases h
      case h_2 ec hc =>
        refine ⟨i2, ?_⟩
        injection h with h2
        rw [← h2]
  case h_2 => cases h

/-- C1: the claim says `parse_name` only ever produces identifiers matching
the ASCII grammar of the spec and of the doc comment on `parse_name`
(line.rs line 231). The code instead uses Rust's Unicode `is_alphabetic`, so
the non-ASCII letter é (U+00E9) is accepted as an identifier and flows into a
parsed `Metric` name, contradicting the claim; this theorem evaluates the
embedded code at that failing input. -/
theorem claim_c1_code_eval :
    parse_name "é".toList = .ok [] "é".toList
    ∧ specIdent "é".toList = false
    ∧ Line.parse "é 1".toList = .ok (some (.metric ⟨"é".toList, [], .finite 1⟩)) := by
  refine ⟨by decide, by decide, by decide⟩

/-- C2 counterexample: the claim says any kind token that is not exactly one
of the five keywords fails with the unrecognized-metric-kind error, naming
`counters` as such a token. In the code `tag("counter")` is a prefix match,
so `# TYPE a counters` succeeds as `Counter` with remainder `s`, and the whole
line parses as a header. -/
theorem claim_c2_counterexample :
    Header.parse "# TYPE a counters".toList
      = .ok "s".toList ⟨"a".toList, .counter⟩
    ∧ Line.parse "# TYPE a counters".toList
      = .ok (some (.header ⟨"a".toList, .counter⟩)) := by
  refine ⟨by decide, by decide⟩

/-- C2 (amended): for a header line whose kind position holds `kwinput`, the
kind alternation is a prefix match: if one of the five keywords is a prefix of
`kwinput`, `Header::parse` succeeds with the corresponding kind, consuming
only the keyword and leaving the remainder of `kwinput`; if no keyword is a
prefix (in particular for any strict or case-mismatched token such as
`Counter`), it fails with `UnrecognizedMetricKind` carrying the remaining
input at the kind position. -/
theorem claim_c2_amended (name kwinput : Input) (hname : ValidIdentB name = true)
    (hks : ∀ c, kwinput.head? = some c → isSpaceTab c = false) :
    (∀ (kw : String) (K : MetricKind) (rest : Input), (kw, K) ∈ kindTable →
      kwinput = kw.toList ++ rest →
      Header.parse ('#' :: ' ' :: 'T' :: 'Y' :: 'P' :: 'E' :: ' ' :: (name ++ ' ' :: kwinput))
        = .ok rest ⟨name, K⟩)
    ∧ ((∀ (kw : String) (K : MetricKind), (kw, K) ∈ kindTable →
        kw.toList.isPrefixOf kwinput = false) →
      Header.parse ('#' :: ' ' :: 'T' :: 'Y' :: 'P' :: 'E' :: ' ' :: (name ++ ' ' :: kwinput))
        = .err (.InvalidMetricKind kwinput)) := by
  constructor
  · intro kw K rest hmem heq
    subst heq
    rw [header_render hname hks]
    rw [parseKind_of_table hmem]
  · intro hnone
    rw [header_render hname hks]
    rw [parseKind_none hnone]

/-- C2 witness: the amended claim applied at the concrete lines
`# TYPE a gauge` (keyword match) and `# TYPE a bogus` (no keyword prefix). -/
theorem claim_c2_amended_witness :
    Header.parse ('#' :: ' ' :: 'T' :: 'Y' :: 'P' :: 'E' :: ' '
        :: ("a".toList ++ ' ' :: "gauge".toList))
      = .ok [] ⟨"a".toList, .gauge⟩
    ∧ Header.parse ('#' :: ' ' :: 'T' :: 'Y' :: 'P' :: 'E' :: ' '
        :: ("a".toList ++ ' ' :: "bogus".toList))
      = .err (.InvalidMetricKind "bogus".toList) := by
  constructor
  · have hks : ∀ c, ("gauge".toList : Input).head? = some c → isSpaceTab c = false := by
      intro c hc
      have h2 : some 'g' = some c := hc
      obtain rfl : 'g' = c := by injection h2
      decide
    exact (claim_c2_amended "a".toList "gauge".toList (by decide) hks).1 "gauge" .gauge []
      (by simp [kindTable]) rfl
  · have hks : ∀ c, ("bogus".toList : Input).head? = some c → isSpaceTab c = false := by
      intro c hc
      have h2 : some 'b' = some c := hc
      obtain rfl : 'b' = c := by injection h2
      decide
    refine (claim_c2_amended "a".toList "bogus".toList (by decide) hks).2 ?_
    intro kw K hmem
    simp only [kindTable, List.mem_cons, List.mem_singleton, Prod.mk.injEq,
      List.not_mem_nil, or_false] at hmem
    rcases hmem with ⟨rfl, rfl⟩ | ⟨rfl, rfl⟩ | ⟨rfl, rfl⟩ | ⟨rfl, rfl⟩ | ⟨rfl, rfl⟩ <;> decide

/-- C3: a line that is empty after trimming parses to no value, and a trimmed
line that begins with a number sign on which both the metric grammar and the
header grammar fail also parses to no value, never an error. -/
theorem claim_c3 (input : Input) :
    (rustTrim input = [] → Line.parse input = .ok none)
    ∧ (∀ (rest : Input) (e1 e2 : ParserError), rustTrim input = '#' :: rest →
        Metric.parse (rustTrim input) = .err e1 →
        Header.parse (rustTrim input) = .err e2 →
        Line.parse input = .ok none) := by
  constructor
  · intro h
    simp [Line.parse, Line.parse_inner, h]
  · intro rest e1 e2 hh hm hhd
    rw [hh] at hm hhd
    simp only [Line.parse, Line.parse_inner, hh, List.isEmpty_cons, hm, hhd, pchar_cons_self]
    simp

/-- C3 witness: the line ` # HELP ok` trims to `# HELP ok`, on which the
metric grammar fails with a name error and the header grammar fails expecting
`TYPE`; the line is classified as ignorable. -/
theorem claim_c3_witness : Line.parse " # HELP ok".toList = .ok none := by
  exact (claim_c3 " # HELP ok".toList).2 " HELP ok".toList
    (.ParseNameError "# HELP ok".toList)
    (.ExpectedToken "TYPE" "HELP ok".toList)
    (by decide) (by decide) (by decide)

/-- C4: whenever `Metric::parse_labels` fails, the error is
`ExpectedToken` for the closing right brace (never the generic nom error);
and a label set rendered with a single trailing comma parses to exactly the
same mapping as the same label set rendered without it. -/
theorem claim_c4 :
    (∀ (input : Input) (e : ParserError), Metric.parse_labels input = .err e →
      ∃ r, e = .ExpectedToken "\x7d" r)
    ∧ (∀ (pairs : List (Input × Input)) (rest : Input), ValidPairs pairs = true →
        Metric.parse_labels ('{' :: (renderInner pairs true ++ '}' :: rest))
          = .ok rest (btreeFromList pairs)
        ∧ Metric.parse_labels ('{' :: (renderInner pairs false ++ '}' :: rest))
          = .ok rest (btreeFromList pairs)) :=
  ⟨fun _ e h => parse_labels_err h,
   fun _ rest hval => ⟨parse_labels_render hval, parse_labels_render hval⟩⟩

/-- C4 witness: the truncated input left-brace `name="value"` (no closing
brace) fails with `ExpectedToken` for the right brace, and the claim applied
at one concrete pair shows trailing-comma and plain renderings agree. -/
theorem claim_c4_witness :
    (∃ r, (ParserError.ExpectedToken "\x7d" ([] : Input)) = .ExpectedToken "\x7d" r)
    ∧ Metric.parse_labels ('{' :: (renderInner [("a".toList, "1".toList)] true ++ '}' :: []))
        = .ok [] (btreeFromList [("a".toList, "1".toList)])
    ∧ Metric.parse_labels ('{' :: (renderInner [("a".toList, "1".toList)] false ++ '}' :: []))
        = .ok [] (btreeFromList [("a".toList, "1".toList)]) := by
  refine ⟨claim_c4.1 "\x7bname=\"value\"".toList (.ExpectedToken "\x7d" []) (by decide), ?_, ?_⟩
  · exact (claim_c4.2 [("a".toList, "1".toList)] [] (by decide)).1
  · exact (claim_c4.2 [("a".toList, "1".toList)] [] (by decide)).2

/-- C5: a label set containing a duplicated key still parses successfully,
and the resulting ordered map binds every key to the value of its last
(rightmost) occurrence in source order, so distinct keys keep their own
values and a duplicated key gets the rightmost value. -/
theorem claim_c5 (pairs : List (Input × Input)) (k : Input)
    (hval : ValidPairs pairs = true)
    (hdup : 2 ≤ (pairs.map Prod.fst).count k) :
    Metric.parse_labels ('{' :: (renderInner pairs false ++ '}' :: []))
      = .ok [] (btreeFromList pairs)
    ∧ btreeLookup (btreeFromList pairs) k = lastVal pairs k
    ∧ (∀ k', btreeLookup (btreeFromList pairs) k' = lastVal pairs k') :=
  ⟨parse_labels_render hval, btreeLookup_fromList pairs k,
   fun k' => btreeLookup_fromList pairs k'⟩

/-- C5 witness: the duplicate-keyed label set left-brace a="1",a="2"
right-brace parses, and the key a maps to "2", the rightmost value. -/
theorem claim_c5_witness :
    Metric.parse_labels
        ('{' :: (renderInner [("a".toList, "1".toList), ("a".toList, "2".toList)] false
          ++ '}' :: []))
      = .ok [] (btreeFromList [("a".toList, "1".toList), ("a".toList, "2".toList)])
    ∧ btreeLookup (btreeFromList [("a".toList, "1".toList), ("a".toList, "2".toList)])
        "a".toList
      = lastVal [("a".toList, "1".toList), ("a".toList, "2".toList)] "a".toList
    ∧ lastVal [("a".toList, "1".toList), ("a".toList, "2".toList)] "a".toList
      = some "2".toList := by
  have h := claim_c5 [("a".toList, "1".toList), ("a".toList, "2".toList)] "a".toList
    (by decide) (by decide)
  exact ⟨h.1, h.2.1, by decide⟩

/-- C6 counterexample: the claim says `Metric::parse_value` fails with the
malformed-numeric-value error whenever none of the three sentinel tokens nor
the decimal float literal grammar matches. At the input `inf`, none of the
sentinels `+Inf`, `-Inf`, `Nan` is a prefix and the decimal literal grammar
does not match, yet `parse_value` succeeds with positive infinity: nom 5's
default `double` is `lexical_core::parse_partial`, which also accepts the
special strings `inf`, `infinity` and `nan` case-insensitively. -/
theorem claim_c6_counterexample :
    ("+Inf".toList).isPrefixOf (trim_space "inf".toList) = false
    ∧ ("-Inf".toList).isPrefixOf (trim_space "inf".toList) = false
    ∧ ("Nan".toList).isPrefixOf (trim_space "inf".toList) = false
    ∧ specFloatMatches "inf".toList = false
    ∧ Metric.parse_value "inf".toList = .ok [] .posInf := by
  refine ⟨by decide, by decide, by decide, by decide, by decide⟩

/-- C6 (amended): the value lexer maps `+Inf`, `-Inf`, `Nan` to the three
sentinels and the listed decimal literals to their exact values, and is
unchanged by leading horizontal whitespace. Its decimal fallback is
`lexical_core::parse_partial`, whose grammar strictly extends the decimal
literal grammar: the special strings `inf`, `infinity` and `nan` are accepted
case-insensitively (so `inf`, `infinity`, `-inf` and `NaN` all yield values),
and a truncated exponent is rolled back rather than rejected (`1e` is the
value 1 with `e` left unconsumed). `parse_value` fails with the
malformed-numeric-value error carrying the trimmed input exactly when no
sentinel is a prefix and this lexical grammar also fails. -/
theorem claim_c6 :
    Metric.parse_value "+Inf".toList = .ok [] .posInf
    ∧ Metric.parse_value "-Inf".toList = .ok [] .negInf
    ∧ Metric.parse_value "Nan".toList = .ok [] .nan
    ∧ Metric.parse_value "0".toList = .ok [] (.finite (mkRat 0 1))
    ∧ Metric.parse_value "0.25".toList = .ok [] (.finite (mkRat 1 4))
    ∧ Metric.parse_value "-10.25".toList = .ok [] (.finite (mkRat (-41) 4))
    ∧ Metric.parse_value "-10e-25".toList = .ok [] (.finite (mkRat (-1) (10 ^ 24)))
    ∧ Metric.parse_value "-10e+25".toList = .ok [] (.finite (mkRat (-(10 ^ 26)) 1))
    ∧ Metric.parse_value "2020".toList = .ok [] (.finite (mkRat 2020 1))
    ∧ Metric.parse_value "1.".toList = .ok [] (.finite (mkRat 1 1))
    ∧ Metric.parse_value "inf".toList = .ok [] .posInf
    ∧ Metric.parse_value "infinity".toList = .ok [] .posInf
    ∧ Metric.parse_value "-inf".toList = .ok [] .negInf
    ∧ Metric.parse_value "NaN".toList = .ok [] .nan
    ∧ Metric.parse_value "1e".toList = .ok "e".toList (.finite (mkRat 1 1))
    ∧ (∀ (w input : Input), (∀ c ∈ w, isSpaceTab c = true) →
        Metric.parse_value (w ++ input) = Metric.parse_value input)
    ∧ (∀ (input : Input),
        ("+Inf".toList).isPrefixOf (trim_space input) = false →
        ("-Inf".toList).isPrefixOf (trim_space input) = false →
        ("Nan".toList).isPrefixOf (trim_space input) = false →
        (∀ (r : Input) (v : FloatVal), double (trim_space input) ≠ .ok r v) →
        Metric.parse_value input = .err (.ParseFloatError (trim_space input))) := by
  refine ⟨by decide, by decide, by decide, by decide, by decide, by decide, by decide,
    by decide, by decide, by decide, by decide, by decide, by decide, by decide, by decide,
    ?_, ?_⟩
  · intro w input hw
    simp only [Metric.parse_value]
    rw [show trim_space (w ++ input) = trim_space input from dropWhile_append_all input hw]
  · intro input h1 h2 h3 hd
    simp only [Metric.parse_value, ptag_err_of_not h1, ptag_err_of_not h2, ptag_err_of_not h3]
    cases e : double (trim_space input) with
    | ok r v => exact absurd e (hd r v)
    | err e2 => simp [e]

/-- C6 witness: the failure clause applied at `abc` (no sentinel, no float)
and the whitespace clause applied at `  +Inf` together with the `+Inf`
clause. -/
theorem claim_c6_witness :
    Metric.parse_value "abc".toList = .err (.ParseFloatError "abc".toList)
    ∧ Metric.parse_value ("  ".toList ++ "+Inf".toList) = .ok [] .posInf := by
  obtain ⟨h1, _, _, _, _, _, _, _, _, _, _, _, _, _, _, hws, hfail⟩ := claim_c6
  constructor
  · refine hfail "abc".toList (by decide) (by decide) (by decide) ?_
    intro r v h
    have h0 : double (trim_space "abc".toList) = .err (.Nom "abc".toList) := by decide
    rw [h0] at h
    cases h
  · rw [hws "  ".toList "+Inf".toList (by decide)]
    exact h1

/-- C7: wrapping any quote-free and backslash-free string in double quotes
and parsing it with the escaped-string lexer returns exactly that string and
leaves everything after the closing quote unconsumed. -/
theorem claim_c7 (s rest : Input)
    (hs : ∀ c ∈ s, (!(['"', '\\'].contains c)) = true) :
    Metric.parse_escaped_string ('"' :: s ++ '"' :: rest) = .ok rest s :=
  parse_escaped_string_render hs

/-- C7 witness: the round trip at the concrete string `ab` with trailing
input `.`. -/
theorem claim_c7_witness :
    Metric.parse_escaped_string ('"' :: "ab".toList ++ '"' :: ".".toList)
      = .ok ".".toList "ab".toList :=
  claim_c7 "ab".toList ".".toList (by decide)

theorem trim_space_cons_space (l : Input) : trim_space (' ' :: l) = trim_space l := by
  show List.dropWhile _ _ = List.dropWhile _ _
  rw [List.dropWhile_cons, if_pos (by decide : isSpaceTab ' ' = true)]

/-- C8: two label pairs separated by whitespace only (no comma), and two label
pairs separated by a double comma, both make `Metric::parse_labels` fail with
an error rather than producing any mapping, for every choice of valid pair
contents. -/
theorem claim_c8 (a b c d : Input) (ha : ValidIdentB a = true) (hvb : ValidLabelValue b = true)
    (hc : ValidIdentB c = true) (hvd : ValidLabelValue d = true) :
    (∃ e, Metric.parse_labels
        ('{' :: ' ' :: (a ++ ('=' :: '"' :: (b ++ ('"' :: ' '
          :: (c ++ ('=' :: '"' :: (d ++ ('"' :: ' ' :: '}' :: [])))))))))
      = .err e)
    ∧ (∃ e, Metric.parse_labels
        ('{' :: ' ' :: (a ++ ('=' :: '"' :: (b ++ ('"' :: ' ' :: ',' :: ',' :: ' '
          :: (c ++ ('=' :: '"' :: (d ++ ('"' :: ' ' :: '}' :: [])))))))))
      = .err e) := by
  have h_elem1 : ∀ (REST : Input),
      Metric.parse_name_value (' ' :: (a ++ ('=' :: '"' :: (b ++ ('"' :: REST)))))
        = .ok REST (a, b) := by
    intro REST
    rw [parse_name_value_space]
    have heq : a ++ ('=' :: '"' :: (b ++ ('"' :: REST))) = renderPair (a, b) ++ REST := by
      simp [renderPair, List.append_assoc]
    rw [heq]
    exact parse_name_value_render ha hvb
  cases c with
  | nil => simp [ValidIdentB] at hc
  | cons c0 cs =>
    have hC0 : isNameStartChar c0 = true := by
      simp only [ValidIdentB, Bool.and_eq_true] at hc
      exact hc.1
    constructor
    · -- no separator between the pairs
      set X1 : Input := '=' :: '"' :: (d ++ ('"' :: ' ' :: '}' :: [])) with hX1
      set REST1 : Input := ' ' :: ((c0 :: cs) ++ X1) with hREST1
      have htrimR : trim_space REST1 = c0 :: (cs ++ X1) := by
        rw [hREST1, trim_space_cons_space]
        show trim_space (c0 :: (cs ++ X1)) = _
        exact trim_space_cons_of_not (isSpaceTab_false_of_nameStart hC0)
      have hsep1 : pchar ',' (trim_space REST1) = .err (.Nom (c0 :: (cs ++ X1))) := by
        rw [htrimR]
        exact pchar_cons_ne _ (nameStart_ne_of hC0 (by decide))
      have hclose1 : pchar '}' (trim_space REST1) = .err (.Nom (c0 :: (cs ++ X1))) := by
        rw [htrimR]
        exact pchar_cons_ne _ (nameStart_ne_of hC0 (by decide))
      have hlen1 : REST1.length < (' ' :: (a ++ ('=' :: '"' :: (b ++ ('"' :: REST1))))).length := by
        simp only [List.length_cons, List.length_append]
        omega
      have hsl1 : sepListNameValue (' ' :: (a ++ ('=' :: '"' :: (b ++ ('"' :: REST1)))))
          = .ok REST1 [(a, b)] := by
        simp only [sepListNameValue, h_elem1 REST1]
        rw [if_pos hlen1]
        exact sepListLoopFuel_stop (by omega) [(a, b)] hsep1
      have hinner1 : Metric.parse_labels_inner (' ' :: (a ++ ('=' :: '"' :: (b ++ ('"' :: REST1)))))
          = .ok REST1 (btreeFromList [(a, b)]) := by
        simp only [Metric.parse_labels_inner, hsl1, hsep1]
      have htrim0 : trim_space ('{' :: ' ' :: (a ++ ('=' :: '"' :: (b ++ ('"' :: REST1)))))
          = '{' :: ' ' :: (a ++ ('=' :: '"' :: (b ++ ('"' :: REST1)))) :=
        trim_space_cons_of_not (by decide)
      refine ⟨.ExpectedToken "\x7d" REST1, ?_⟩
      simp only [Metric.parse_labels, htrim0, hinner1, hclose1]
    · -- double comma between the pairs
      set X1 : Input := '=' :: '"' :: (d ++ ('"' :: ' ' :: '}' :: [])) with hX1
      set J2 : Input := ',' :: ' ' :: ((c0 :: cs) ++ X1) with hJ2
      set REST2 : Input := ' ' :: ',' :: J2 with hREST2
      have htrimR : trim_space REST2 = ',' :: J2 := by
        rw [hREST2, trim_space_cons_space]
        exact trim_space_cons_of_not (by decide)
      have hsep2 : pchar ',' (trim_space REST2) = .ok J2 ',' := by
        rw [htrimR]
        exact pchar_cons_self ',' J2
      have helem2 : Metric.parse_name_value J2 = .err (.ParseNameError J2) := by
        rw [hJ2]
        exact parse_name_value_err_head (by decide) (by decide)
      have hclose2 : pchar '}' (trim_space J2) = .err (.Nom J2) := by
        rw [hJ2]
        rw [show trim_space (',' :: ' ' :: ((c0 :: cs) ++ X1)) = ',' :: ' ' :: ((c0 :: cs) ++ X1)
          from trim_space_cons_of_not (by decide)]
        exact pchar_cons_ne _ (by decide)
      have hlen2 : REST2.length < (' ' :: (a ++ ('=' :: '"' :: (b ++ ('"' :: REST2))))).length := by
        simp only [List.length_cons, List.length_append]
        omega
      have hsl2 : sepListNameValue (' ' :: (a ++ ('=' :: '"' :: (b ++ ('"' :: REST2)))))
          = .ok REST2 [(a, b)] := by
        simp only [sepListNameValue, h_elem1 REST2]
        rw [if_pos hlen2]
        exact sepListLoopFuel_elem_fail (by omega) [(a, b)] hsep2 helem2
      have hinner2 : Metric.parse_labels_inner (' ' :: (a ++ ('=' :: '"' :: (b ++ ('"' :: REST2)))))
          = .ok J2 (btreeFromList [(a, b)]) := by
        simp only [Metric.parse_labels_inner, hsl2, hsep2]
      have htrim0 : trim_space ('{' :: ' ' :: (a ++ ('=' :: '"' :: (b ++ ('"' :: REST2)))))
          = '{' :: ' ' :: (a ++ ('=' :: '"' :: (b ++ ('"' :: REST2)))) :=
        trim_space_cons_of_not (by decide)
      refine ⟨.ExpectedToken "\x7d" J2, ?_⟩
      simp only [Metric.parse_labels, htrim0, hinner2, hclose2]

/-- C8 witness: the spec's two end-to-end examples, the label sets
left-brace a="b" c="d" right-brace and left-brace a="b" ,, c="d" right-brace,
both fail. -/
theorem claim_c8_witness :
    (∃ e, Metric.parse_labels "\x7b a=\"b\" c=\"d\" \x7d".toList = .err e)
    ∧ (∃ e, Metric.parse_labels "\x7b a=\"b\" ,, c=\"d\" \x7d".toList = .err e) :=
  claim_c8 "a".toList "b".toList "c".toList "d".toList
    (by decide) (by decide) (by decide) (by decide)

/-- C9: the sample line from the spec parses as a metric named
`http_requests_total` with labels method=post and code=200 and value 1027; the
trailing timestamp `1395066363000` is left as unconsumed remainder by
`parse_inner` and discarded by `Line::parse`. -/
theorem claim_c9 :
    Line.parse_inner "http_requests_total\x7bmethod=\"post\",code=\"200\"\x7d 1027 1395066363000".toList
      = .ok " 1395066363000".toList
          (some (.metric ⟨"http_requests_total".toList,
            [("code".toList, "200".toList), ("method".toList, "post".toList)],
            .finite (mkRat 1027 1)⟩))
    ∧ Line.parse "http_requests_total\x7bmethod=\"post\",code=\"200\"\x7d 1027 1395066363000".toList
      = .ok (some (.metric ⟨"http_requests_total".toList,
          [("code".toList, "200".toList), ("method".toList, "post".toList)],
          .finite (mkRat 1027 1)⟩)) := by
  exact ⟨by decide, by decide⟩

/-- C10: `Line::parse` discards the unconsumed remainder of every
successfully classified line, and in particular a header line with arbitrary
trailing text after the kind keyword still parses as a header, the trailing
text being ignored. -/
theorem claim_c10 :
    (∀ (input rest : Input) (v : Option Line), Line.parse_inner input = .ok rest v →
      Line.parse input = .ok v)
    ∧ Line.parse_inner "# TYPE abc_def counter anything here".toList
        = .ok " anything here".toList (some (.header ⟨"abc_def".toList, .counter⟩))
    ∧ Line.parse "# TYPE abc_def counter anything here".toList
        = .ok (some (.header ⟨"abc_def".toList, .counter⟩)) := by
  refine ⟨?_, by decide, by decide⟩
  intro input rest v h
  simp only [Line.parse, h]

/-- C10 witness: the discarding clause applied to a concrete metric line with
a trailing timestamp-like token. -/
theorem claim_c10_witness :
    Line.parse "x 1 garbage".toList = .ok (some (.metric ⟨"x".toList, [], .finite (mkRat 1 1)⟩)) :=
  claim_c10.1 "x 1 garbage".toList " garbage".toList
    (some (.metric ⟨"x".toList, [], .finite (mkRat 1 1)⟩)) (by decide)
